import Mathlib

/-!
# Verification of the `openarchive-rs` archive format (encoder + zero-copy decoder)

Shallow embedding of `src/lib.rs` and `src/builder.rs`. Byte buffers are
`List Nat` (each element one byte); machine integers are `Nat` with explicit
width bounds where the Rust code can panic on a failed conversion. Rust
panics (slice `split_at` / range-indexing out of bounds, `unwrap`/`expect`,
integer underflow) are modelled as explicit `panic` outcomes, since the
claims distinguish typed errors from aborts.

Layout facts used throughout (from the `#[repr(C)]` definitions in
`src/lib.rs`): `size_of::<ArchiveHeader>() = 40` (magic 8, version 4,
entry_count 4, names_size 8, extra_data_size 8, uncompressed_size 8);
`size_of::<Signature>() = 8` (u32 discriminant + u32 payload);
`size_of::<ArchiveTableEntry>() = 56` (signature 8 + six u64 fields).
-/

namespace OpenArchive

/-! ## Little-endian byte encoding helpers -/

/-- Interpret a little-endian byte list as a natural number
(`u32::from_le_bytes` / `u64::from_le_bytes`). -/
def leToNat : List Nat → Nat
  | [] => 0
  | b :: bs => b + 256 * leToNat bs

/-- `u32::to_le_bytes`. -/
def u32ToLe (n : Nat) : List Nat :=
  [n % 256, n / 256 % 256, n / 256 ^ 2 % 256, n / 256 ^ 3 % 256]

/-- `u64::to_le_bytes`. -/
def u64ToLe (n : Nat) : List Nat :=
  [n % 256, n / 256 % 256, n / 256 ^ 2 % 256, n / 256 ^ 3 % 256,
   n / 256 ^ 4 % 256, n / 256 ^ 5 % 256, n / 256 ^ 6 % 256, n / 256 ^ 7 % 256]

theorem u32ToLe_length (n : Nat) : (u32ToLe n).length = 4 := rfl

theorem u64ToLe_length (n : Nat) : (u64ToLe n).length = 8 := rfl

theorem leToNat_u32ToLe (n : Nat) (h : n < 2 ^ 32) : leToNat (u32ToLe n) = n := by
  simp only [u32ToLe, leToNat]
  omega

theorem leToNat_u64ToLe (n : Nat) (h : n < 2 ^ 64) : leToNat (u64ToLe n) = n := by
  simp only [u64ToLe, leToNat]
  omega

/-! ## Error type (`enum Error` in `src/lib.rs`) -/

inductive Error where
  | InvalidMagic
  | InvalidVersion
  | InvalidSignature
  | InternalError
  | IncompleteHeader
  | InvalidSizeSum
  | IncompleteData
  | InvalidEntryTable
  deriving DecidableEq, Repr

/-! ## Constants (`src/lib.rs` lines 15-19) -/

/-- `pub const MAGIC: &[u8; 8] = b"OARCHIVE";` -/
def MAGIC : List Nat := [79, 65, 82, 67, 72, 73, 86, 69]

/-- `pub const VERSION_0_0_1_0: u32 = u32::from_le_bytes([0, 0, 1, 0]);` -/
def VERSION_0_0_1_0 : Nat := leToNat [0, 0, 1, 0]

/-- `pub const VERSIONS: [u32; 1] = [VERSION_0_0_1_0];` -/
def VERSIONS : List Nat := [VERSION_0_0_1_0]

/-! ## Signature (`enum Signature`, `#[repr(u32)]`, 8 bytes on the wire) -/

inductive Signature where
  | File
  | Directory
  | OS (code : Nat)
  deriving DecidableEq, Repr

/-- Wire discriminant of a signature (`File = 0`, `Directory = 1`,
`OS(u32) = u32::MAX`). -/
def Signature.tag : Signature → Nat
  | .File => 0
  | .Directory => 1
  | .OS _ => 2 ^ 32 - 1

/-- The embedded 32-bit payload occupying bytes 4..8 of the wire signature
(meaningful only for `OS`; modelled as 0 for the plain variants). -/
def Signature.payload : Signature → Nat
  | .OS c => c
  | _ => 0

/-- A signature value representable on the wire: the `OS` code fits in `u32`
(in Rust this is enforced by the `u32` field type). -/
def Signature.wf : Signature → Prop
  | .OS c => c < 2 ^ 32
  | _ => True

instance (s : Signature) : Decidable s.wf := by
  cases s <;> simp only [Signature.wf] <;> infer_instance

/-- `Signature::is_valid_bit_pattern`: the first four little-endian bytes must
decode to `0`, `1`, or `u32::MAX` (`src/lib.rs` lines 182-187). -/
def sigTagValid (tag : Nat) : Bool :=
  tag = 0 || tag = 1 || tag = 2 ^ 32 - 1

/-- Decode 8 signature bytes: the checked-bit-pattern validation combined with
the `#[repr(u32)]` layout (discriminant in bytes 0..4, `OS` payload in
bytes 4..8). -/
def signatureFromBytes (bs : List Nat) : Option Signature :=
  if leToNat (bs.take 4) = 0 then some .File
  else if leToNat (bs.take 4) = 1 then some .Directory
  else if leToNat (bs.take 4) = 2 ^ 32 - 1 then some (.OS (leToNat ((bs.drop 4).take 4)))
  else none

/-- Serialize a signature to its 8 wire bytes. -/
def signatureToBytes (s : Signature) : List Nat :=
  u32ToLe s.tag ++ u32ToLe s.payload

/-! ## Table entries (`struct ArchiveTableEntry`, 56 bytes on the wire) -/

structure ArchiveTableEntry where
  signature : Signature
  name_offset : Nat
  name_len : Nat
  extra_data_offset : Nat
  extra_data_len : Nat
  data_offset : Nat
  data_len : Nat
  deriving DecidableEq, Repr

/-- All scalar fields of a table entry fit their wire widths. -/
def ArchiveTableEntry.wf (te : ArchiveTableEntry) : Prop :=
  te.signature.wf ∧ te.name_offset < 2 ^ 64 ∧ te.name_len < 2 ^ 64 ∧
  te.extra_data_offset < 2 ^ 64 ∧ te.extra_data_len < 2 ^ 64 ∧
  te.data_offset < 2 ^ 64 ∧ te.data_len < 2 ^ 64

instance (te : ArchiveTableEntry) : Decidable te.wf := by
  unfold ArchiveTableEntry.wf; infer_instance

/-- Decode one 56-byte table entry (`ArchiveTableEntry::is_valid_bit_pattern`
validates only the leading signature bytes; the six u64 fields follow). -/
def tableEntryFromBytes (bs : List Nat) : Option ArchiveTableEntry :=
  match signatureFromBytes (bs.take 8) with
  | none => none
  | some sig => some
      { signature := sig
        name_offset := leToNat ((bs.drop 8).take 8)
        name_len := leToNat ((bs.drop 16).take 8)
        extra_data_offset := leToNat ((bs.drop 24).take 8)
        extra_data_len := leToNat ((bs.drop 32).take 8)
        data_offset := leToNat ((bs.drop 40).take 8)
        data_len := leToNat ((bs.drop 48).take 8) }

/-- Serialize one table entry to its 56 wire bytes (the byte reinterpretation
done by `bytemuck::cast_slice` in `ArchiveBuilder::finish`). -/
def tableEntryToBytes (te : ArchiveTableEntry) : List Nat :=
  signatureToBytes te.signature ++
  u64ToLe te.name_offset ++ u64ToLe te.name_len ++
  u64ToLe te.extra_data_offset ++ u64ToLe te.extra_data_len ++
  u64ToLe te.data_offset ++ u64ToLe te.data_len

theorem tableEntryToBytes_length (te : ArchiveTableEntry) :
    (tableEntryToBytes te).length = 56 := by
  simp [tableEntryToBytes, signatureToBytes, u32ToLe, u64ToLe]

/-- `bytemuck::checked::try_cast_slice` on the entry-table region: decode
`count` consecutive 56-byte entries; `none` (`InvalidEntryTable`) as soon as
any entry's signature bit pattern is invalid. -/
def parseEntries : Nat → List Nat → Option (List ArchiveTableEntry)
  | 0, _ => some []
  | n + 1, bytes =>
    match tableEntryFromBytes (bytes.take 56) with
    | none => none
    | some e =>
      match parseEntries n (bytes.drop 56) with
      | none => none
      | some rest => some (e :: rest)

/-! ## Header (`struct ArchiveHeader`, 40 bytes on the wire) -/

structure ArchiveHeader where
  magic : List Nat
  version : Nat
  entry_count : Nat
  names_size : Nat
  extra_data_size : Nat
  uncompressed_size : Nat
  deriving DecidableEq, Repr

/-- Serialize a header to its 40 wire bytes. -/
def headerToBytes (h : ArchiveHeader) : List Nat :=
  h.magic ++ u32ToLe h.version ++ u32ToLe h.entry_count ++
  u64ToLe h.names_size ++ u64ToLe h.extra_data_size ++ u64ToLe h.uncompressed_size

/-- Field extraction of the `#[repr(C)]` header from its 40 bytes: magic at
0..8, version at 8..12, entry_count at 12..16, names_size at 16..24,
extra_data_size at 24..32, uncompressed_size at 32..40. -/
def headerOfBytes (bytes : List Nat) : ArchiveHeader :=
  { magic := bytes.take 8
    version := leToNat ((bytes.drop 8).take 4)
    entry_count := leToNat ((bytes.drop 12).take 4)
    names_size := leToNat ((bytes.drop 16).take 8)
    extra_data_size := leToNat ((bytes.drop 24).take 8)
    uncompressed_size := leToNat ((bytes.drop 32).take 8) }

/-- `impl TryFrom<&[u8]> for &ArchiveHeader` (`src/lib.rs` lines 109-124):
`bytemuck::try_from_bytes` demands exactly `size_of::<ArchiveHeader>()`
bytes (else `IncompleteHeader`), then the magic and version checks run. -/
def headerFromBytes (bytes : List Nat) : Except Error ArchiveHeader :=
  if bytes.length ≠ 40 then .error .IncompleteHeader
  else if (headerOfBytes bytes).magic ≠ MAGIC then .error .InvalidMagic
  else if ¬ (VERSIONS.contains (headerOfBytes bytes).version) then .error .InvalidVersion
  else .ok (headerOfBytes bytes)

/-! ## Archive parsing (`Archive::new`, `src/lib.rs` lines 44-67) -/

structure Archive where
  header : ArchiveHeader
  entry_table : List ArchiveTableEntry
  names : List Nat
  extra_data : List Nat
  data : List Nat
  deriving DecidableEq, Repr

/-- `slice::split_at(n)`: panics (here `none`) when `n` exceeds the slice
length, otherwise splits. -/
def splitAtChecked (n : Nat) (xs : List Nat) : Option (List Nat × List Nat) :=
  if n ≤ xs.length then some (xs.take n, xs.drop n) else none

/-- Outcome of `Archive::new` on an arbitrary buffer: success, a typed
error, or a panic (out-of-bounds `split_at`). -/
inductive ParseResult where
  | ok (a : Archive)
  | err (e : Error)
  | panic
  deriving DecidableEq, Repr

/-- The last two splits of `Archive::new` (`src/lib.rs` lines 56-66): split
`names_size` bytes as the names segment, then `extra_data_size` bytes as the
auxiliary segment; the remainder is the payload segment. -/
def parseSegments (header : ArchiveHeader) (entry_table : List ArchiveTableEntry)
    (data : List Nat) : ParseResult :=
  match splitAtChecked header.names_size data with
  | none => .panic
  | some (names_bytes, data) =>
    match splitAtChecked header.extra_data_size data with
    | none => .panic
    | some (extra_data_bytes, data) =>
      .ok { header, entry_table, names := names_bytes,
            extra_data := extra_data_bytes, data }

/-- The tail of `Archive::new` after the header has been read and validated
(`src/lib.rs` lines 50-55): split `entry_count * 56` entry-table bytes and
checked-cast them (`InvalidEntryTable` on a bad signature pattern), then
continue with the segment splits. -/
def archiveNewRest (header : ArchiveHeader) (data : List Nat) : ParseResult :=
  match splitAtChecked (header.entry_count * 56) data with
  | none => .panic
  | some (entry_table_bytes, data) =>
    match parseEntries header.entry_count entry_table_bytes with
    | none => .err .InvalidEntryTable
    | some entry_table => parseSegments header entry_table data

/-- `Archive::new` (`src/lib.rs` lines 44-67), step for step: split 40 header
bytes (panicking when short — the `TODO pre-handle panic conditions` in the
source), parse/validate the header, then continue with `archiveNewRest`. -/
def archiveNew (data : List Nat) : ParseResult :=
  match splitAtChecked 40 data with
  | none => .panic
  | some (header_bytes, data) =>
    match headerFromBytes header_bytes with
    | .error e => .err e
    | .ok header => archiveNewRest header data

/-! ## UTF-8 validation (`core::str::from_utf8`) -/

/-- A continuation byte `0x80..=0xBF`. -/
def utf8Cont (b : Nat) : Bool := 0x80 ≤ b && b ≤ 0xBF

/-- `core::str::from_utf8` validity over raw bytes: the standard UTF-8
well-formedness automaton (shortest forms only, surrogates and values above
U+10FFFF rejected). -/
def isValidUtf8 : List Nat → Bool
  | [] => true
  | b0 :: rest =>
    if b0 ≤ 0x7F then isValidUtf8 rest
    else
      match rest with
      | [] => false
      | b1 :: rest1 =>
        if 0xC2 ≤ b0 && b0 ≤ 0xDF then utf8Cont b1 && isValidUtf8 rest1
        else
          match rest1 with
          | [] => false
          | b2 :: rest2 =>
            if b0 = 0xE0 then
              (0xA0 ≤ b1 && b1 ≤ 0xBF) && utf8Cont b2 && isValidUtf8 rest2
            else if (0xE1 ≤ b0 && b0 ≤ 0xEC) || b0 = 0xEE || b0 = 0xEF then
              utf8Cont b1 && utf8Cont b2 && isValidUtf8 rest2
            else if b0 = 0xED then
              (0x80 ≤ b1 && b1 ≤ 0x9F) && utf8Cont b2 && isValidUtf8 rest2
            else
              match rest2 with
              | [] => false
              | b3 :: rest3 =>
                if b0 = 0xF0 then
                  (0x90 ≤ b1 && b1 ≤ 0xBF) && utf8Cont b2 && utf8Cont b3 &&
                    isValidUtf8 rest3
                else if 0xF1 ≤ b0 && b0 ≤ 0xF3 then
                  utf8Cont b1 && utf8Cont b2 && utf8Cont b3 && isValidUtf8 rest3
                else if b0 = 0xF4 then
                  (0x80 ≤ b1 && b1 ≤ 0x8F) && utf8Cont b2 && utf8Cont b3 &&
                    isValidUtf8 rest3
                else false

/-! ## Entry materialization (`ArchiveEntry::from_table_entry`, lines 258-285) -/

/-- A materialized entry view. `name` holds the bytes of the `&str` the Rust
code produces. -/
structure ArchiveEntry where
  name : List Nat
  extra_data : List Nat
  data : List Nat
  deriving DecidableEq, Repr

/-- Rust range indexing `&xs[off..off+len]`: panics (`none`) when the end of
the range exceeds the slice length. -/
def sliceRange (xs : List Nat) (off len : Nat) : Option (List Nat) :=
  if off + len ≤ xs.length then some ((xs.drop off).take len) else none

/-- Outcome of materializing one entry: the Rust function either returns the
view or panics (range indexing out of bounds, or the `expect` on
`core::str::from_utf8`). -/
inductive EntryResult where
  | ok (e : ArchiveEntry)
  | panic
  deriving DecidableEq, Repr

/-- `ArchiveEntry::from_table_entry`: slice the three ranges out of the
segments (panicking out of bounds), then `from_utf8(..).expect(..)` on the
name bytes (panicking on invalid UTF-8). -/
def fromTableEntry (te : ArchiveTableEntry) (names extra_data data : List Nat) :
    EntryResult :=
  match sliceRange names te.name_offset te.name_len with
  | none => .panic
  | some name_bytes =>
    match sliceRange extra_data te.extra_data_offset te.extra_data_len with
    | none => .panic
    | some extra_bytes =>
      match sliceRange data te.data_offset te.data_len with
      | none => .panic
      | some data_bytes =>
        if isValidUtf8 name_bytes then
          .ok { name := name_bytes, extra_data := extra_bytes, data := data_bytes }
        else .panic

/-! ## Iterator (`ArchiveIterator`, `src/lib.rs` lines 303-345) -/

structure ArchiveIterator where
  entries : List ArchiveTableEntry
  names : List Nat
  extra_data : List Nat
  data : List Nat
  index : Nat
  deriving DecidableEq, Repr

/-- `Archive::iter` (`src/lib.rs` lines 69-77). -/
def Archive.iter (a : Archive) : ArchiveIterator :=
  { entries := a.entry_table, names := a.names, extra_data := a.extra_data,
    data := a.data, index := 0 }

/-- One iterator step: exhausted, an item plus the successor state, or a
panic inside `from_table_entry` / on index underflow. -/
inductive IterStep where
  | done
  | item (e : ArchiveEntry) (it : ArchiveIterator)
  | panic
  deriving DecidableEq, Repr

/-- `Iterator::next` (`src/lib.rs` lines 314-324): read `entries[index]`
(ending iteration when out of range), advance the index, materialize. -/
def iterNext (it : ArchiveIterator) : IterStep :=
  match it.entries.get? it.index with
  | none => .done
  | some te =>
    match fromTableEntry te it.names it.extra_data it.data with
    | .panic => .panic
    | .ok e => .item e { it with index := it.index + 1 }

/-- `DoubleEndedIterator::next_back` (`src/lib.rs` lines 328-338): read
`entries[index]` — the same front cursor `next` uses — end iteration when it
is out of range, then `self.index -= 1`, which underflows (panics) when the
index is 0, then materialize. -/
def iterNextBack (it : ArchiveIterator) : IterStep :=
  match it.entries.get? it.index with
  | none => .done
  | some te =>
    if it.index = 0 then .panic
    else
      match fromTableEntry te it.names it.extra_data it.data with
      | .panic => .panic
      | .ok e => .item e { it with index := it.index - 1 }

/-- `ExactSizeIterator::len` (`src/lib.rs` lines 342-344):
`entries.len() - index` (truncated subtraction models the usize result for
the states reached by forward iteration, where `index ≤ len`). -/
def iterLen (it : ArchiveIterator) : Nat :=
  it.entries.length - it.index

/-- Repeated `next` until exhaustion, with fuel: `some` of the yielded entry
list when the iterator finishes within the fuel without panicking, `none`
on a materialization panic (or insufficient fuel). -/
def drainForward : Nat → ArchiveIterator → Option (List ArchiveEntry)
  | 0, _ => none
  | fuel + 1, it =>
    match iterNext it with
    | .done => some []
    | .panic => none
    | .item e it' => (drainForward fuel it').map (e :: ·)

/-! ## Builder (`src/builder.rs`) -/

structure ArchiveBuilder where
  names : List Nat
  extra_data : List Nat
  data : List Nat
  table_entries : List ArchiveTableEntry
  deriving DecidableEq, Repr

/-- `ArchiveBuilder::new`. -/
def ArchiveBuilder.new : ArchiveBuilder :=
  { names := [], extra_data := [], data := [], table_entries := [] }

/-- `ArchiveBuilder::push_entry` (`src/builder.rs` lines 21-43): record the
pre-append offsets and the appended lengths, extend the three segment
buffers, append one table entry. -/
def ArchiveBuilder.pushEntry (b : ArchiveBuilder) (signature : Signature)
    (name extra_data data : List Nat) : ArchiveBuilder :=
  { names := b.names ++ name
    extra_data := b.extra_data ++ extra_data
    data := b.data ++ data
    table_entries := b.table_entries ++
      [{ signature
         name_offset := b.names.length
         name_len := name.length
         extra_data_offset := b.extra_data.length
         extra_data_len := extra_data.length
         data_offset := b.data.length
         data_len := data.length }] }

/-- The `total_size` computed in `finish` (`src/builder.rs` line 58):
header + names + extra data + entry-table bytes + payload data. -/
def ArchiveBuilder.totalSize (b : ArchiveBuilder) : Nat :=
  40 + b.names.length + b.extra_data.length + 56 * b.table_entries.length +
    b.data.length

/-- The numeric conversions in `finish` succeed: the entry count fits `u32`
and every segment size (and the total) fits `u64`. A violation makes the
Rust `try_into().unwrap()` calls (or debug-mode `u64` addition) panic. -/
def ArchiveBuilder.fits (b : ArchiveBuilder) : Prop :=
  b.table_entries.length < 2 ^ 32 ∧ b.names.length < 2 ^ 64 ∧
  b.extra_data.length < 2 ^ 64 ∧ b.totalSize < 2 ^ 64

instance (b : ArchiveBuilder) : Decidable b.fits := by
  unfold ArchiveBuilder.fits; infer_instance

/-- The header `finish` writes (`src/builder.rs` lines 60-66): the current
version, the entry count, the two segment sizes, and `total_size` in the
`uncompressed_size` slot. -/
def ArchiveBuilder.finishHeader (b : ArchiveBuilder) : ArchiveHeader :=
  { magic := MAGIC
    version := VERSION_0_0_1_0
    entry_count := b.table_entries.length
    names_size := b.names.length
    extra_data_size := b.extra_data.length
    uncompressed_size := b.totalSize }

/-- The byte sequence `finish` assembles (`src/builder.rs` lines 68-72):
header, entry-table bytes, names, extra data, payload data, in that
order. -/
def ArchiveBuilder.finishBytes (b : ArchiveBuilder) : List Nat :=
  headerToBytes b.finishHeader ++ (b.table_entries.map tableEntryToBytes).flatten ++
    b.names ++ b.extra_data ++ b.data

/-- `ArchiveBuilder::finish` (`src/builder.rs` lines 45-77): `none` models a
panic (a failed width conversion, or the final
`assert_eq!(total_size, archive_bytes.len())`); otherwise the serialized
archive bytes. -/
def ArchiveBuilder.finish (b : ArchiveBuilder) : Option (List Nat) :=
  if b.fits then
    if b.totalSize = b.finishBytes.length then some b.finishBytes else none
  else none

/-! ## Derived notions used to state the claims -/

/-- One pushed record: `(signature, name, extra_data, payload)`. -/
abbrev EntrySpec := Signature × List Nat × List Nat × List Nat

/-- Push a sequence of records in order onto a fresh builder. -/
def buildAll (specs : List EntrySpec) : ArchiveBuilder :=
  specs.foldl (fun b s => b.pushEntry s.1 s.2.1 s.2.2.1 s.2.2.2) ArchiveBuilder.new

/-- Concatenated names segment of a record sequence. -/
def joinNames (specs : List EntrySpec) : List Nat := (specs.map (·.2.1)).flatten

/-- Concatenated extra-data segment of a record sequence. -/
def joinExtra (specs : List EntrySpec) : List Nat := (specs.map (·.2.2.1)).flatten

/-- Concatenated payload segment of a record sequence. -/
def joinData (specs : List EntrySpec) : List Nat := (specs.map (·.2.2.2)).flatten

/-- The table entries `push_entry` records for a sequence of pushes, starting
from given segment offsets: each entry stores the pre-append offsets and
the pushed lengths. -/
def expectedEntries : Nat → Nat → Nat → List EntrySpec → List ArchiveTableEntry
  | _, _, _, [] => []
  | no, eo, po, s :: rest =>
    { signature := s.1, name_offset := no, name_len := s.2.1.length,
      extra_data_offset := eo, extra_data_len := s.2.2.1.length,
      data_offset := po, data_len := s.2.2.2.length } ::
      expectedEntries (no + s.2.1.length) (eo + s.2.2.1.length)
        (po + s.2.2.2.length) rest

/-- The entry view a pushed record should materialize back to. -/
def expectedView (s : EntrySpec) : ArchiveEntry :=
  { name := s.2.1, extra_data := s.2.2.1, data := s.2.2.2 }

/-- Materialize a list of table entries against fixed segments, in order;
`none` when any materialization panics. -/
def materializeAll (entries : List ArchiveTableEntry)
    (names extra data : List Nat) : Option (List ArchiveEntry) :=
  match entries with
  | [] => some []
  | te :: rest =>
    match fromTableEntry te names extra data with
    | .panic => none
    | .ok e =>
      match materializeAll rest names extra data with
      | none => none
      | some es => some (e :: es)

/-- Erase the one header field (`uncompressed_size`) the decoder stores but
never checks, for comparing parse outcomes of buffers differing only
there. -/
def stripUncompressed : ParseResult → ParseResult
  | .ok a => .ok { a with header := { a.header with uncompressed_size := 0 } }
  | r => r

/-- The raw signature discriminant of table entry `i` inside a whole archive
buffer: the first four little-endian bytes of the entry, which starts at
byte `40 + 56 * i`. -/
def tagAt (b : List Nat) (i : Nat) : Nat :=
  leToNat ((b.drop (40 + 56 * i)).take 4)

/-- The raw signature discriminant of entry `i` within the entry-table
region itself. -/
def entryTagAt (bytes : List Nat) (i : Nat) : Nat :=
  leToNat ((bytes.drop (56 * i)).take 4)

/-! ## Concrete buffers used as counterexamples / failing inputs -/

/-- A structurally valid single-entry archive whose only table entry claims a
1-byte name inside an empty names segment (offset/length out of bounds). -/
def oobBuf : List Nat :=
  headerToBytes
    { magic := MAGIC, version := VERSION_0_0_1_0, entry_count := 1,
      names_size := 0, extra_data_size := 0, uncompressed_size := 96 } ++
  tableEntryToBytes
    { signature := .File, name_offset := 0, name_len := 1,
      extra_data_offset := 0, extra_data_len := 0, data_offset := 0, data_len := 0 }

/-- The archive `Archive::new` produces for `oobBuf`. -/
def oobArchive : Archive :=
  { header := { magic := MAGIC, version := VERSION_0_0_1_0, entry_count := 1,
                names_size := 0, extra_data_size := 0, uncompressed_size := 96 }
    entry_table := [{ signature := .File, name_offset := 0, name_len := 1,
                      extra_data_offset := 0, extra_data_len := 0,
                      data_offset := 0, data_len := 0 }]
    names := [], extra_data := [], data := [] }

/-- A structurally valid single-entry archive whose name slice is in bounds
but is the byte `0xFF`, which is not valid UTF-8. -/
def badUtf8Buf : List Nat :=
  headerToBytes
    { magic := MAGIC, version := VERSION_0_0_1_0, entry_count := 1,
      names_size := 1, extra_data_size := 0, uncompressed_size := 97 } ++
  tableEntryToBytes
    { signature := .File, name_offset := 0, name_len := 1,
      extra_data_offset := 0, extra_data_len := 0, data_offset := 0, data_len := 0 } ++
  [255]

/-- The archive `Archive::new` produces for `badUtf8Buf`. -/
def badUtf8Archive : Archive :=
  { header := { magic := MAGIC, version := VERSION_0_0_1_0, entry_count := 1,
                names_size := 1, extra_data_size := 0, uncompressed_size := 97 }
    entry_table := [{ signature := .File, name_offset := 0, name_len := 1,
                      extra_data_offset := 0, extra_data_len := 0,
                      data_offset := 0, data_len := 0 }]
    names := [255], extra_data := [], data := [] }

/-- A builder holding two pushed records: (`File`, "a", [], "hi") and
(`Directory`, "bc", [1,2], []). -/
def twoEntryBuilder : ArchiveBuilder :=
  (ArchiveBuilder.new.pushEntry .File [97] [] [104, 105]).pushEntry
    .Directory [98, 99] [1, 2] []

/-- The archive parsed back from `twoEntryBuilder.finish`. -/
def twoEntryArchive : Archive :=
  { header := { magic := MAGIC, version := VERSION_0_0_1_0, entry_count := 2,
                names_size := 3, extra_data_size := 2, uncompressed_size := 159 }
    entry_table :=
      [{ signature := .File, name_offset := 0, name_len := 1,
         extra_data_offset := 0, extra_data_len := 0, data_offset := 0, data_len := 2 },
       { signature := .Directory, name_offset := 1, name_len := 2,
         extra_data_offset := 0, extra_data_len := 2, data_offset := 2, data_len := 0 }]
    names := [97, 98, 99], extra_data := [1, 2], data := [104, 105] }

/-! ## Basic lemmas about splitting and slicing -/

theorem splitAtChecked_append (l r : List Nat) :
    splitAtChecked l.length (l ++ r) = some (l, r) := by
  simp [splitAtChecked, List.take_left, List.drop_left]

theorem splitAtChecked_of_le {n : Nat} {xs : List Nat} (h : n ≤ xs.length) :
    splitAtChecked n xs = some (xs.take n, xs.drop n) := by
  simp [splitAtChecked, h]

theorem splitAtChecked_of_gt {n : Nat} {xs : List Nat} (h : xs.length < n) :
    splitAtChecked n xs = none := by
  simp [splitAtChecked]; omega

theorem sliceRange_append (a b c : List Nat) :
    sliceRange (a ++ b ++ c) a.length b.length = some b := by
  have hcond : a.length + b.length ≤ (a ++ b ++ c).length := by
    simp
  rw [sliceRange, if_pos hcond, List.append_assoc, List.drop_left, List.take_left]

/-! ## Step lemmas for the parsing pipeline

Each lemma resolves one `match` of `archiveNew` / `archiveNewRest` /
`parseSegments` given the value of its scrutinee; all arguments are
abstract, so their instantiations never force large definitional
reductions. -/

theorem archiveNew_panic {data : List Nat}
    (h : splitAtChecked 40 data = none) : archiveNew data = .panic := by
  rw [archiveNew, h]

theorem archiveNew_err {data hb rest : List Nat} {e : Error}
    (h1 : splitAtChecked 40 data = some (hb, rest))
    (h2 : headerFromBytes hb = .error e) : archiveNew data = .err e := by
  rw [archiveNew, h1]
  show (match headerFromBytes hb with
    | .error e => ParseResult.err e
    | .ok header => archiveNewRest header rest) = ParseResult.err e
  rw [h2]

theorem archiveNew_ok_step {data hb rest : List Nat} {header : ArchiveHeader}
    (h1 : splitAtChecked 40 data = some (hb, rest))
    (h2 : headerFromBytes hb = .ok header) :
    archiveNew data = archiveNewRest header rest := by
  rw [archiveNew, h1]
  show (match headerFromBytes hb with
    | .error e => ParseResult.err e
    | .ok header => archiveNewRest header rest) = archiveNewRest header rest
  rw [h2]

theorem archiveNewRest_panic (header : ArchiveHeader) {d : List Nat}
    (h : splitAtChecked (header.entry_count * 56) d = none) :
    archiveNewRest header d = .panic := by
  rw [archiveNewRest, h]

theorem archiveNewRest_invalid (header : ArchiveHeader) {d etb r2 : List Nat}
    (h1 : splitAtChecked (header.entry_count * 56) d = some (etb, r2))
    (h2 : parseEntries header.entry_count etb = none) :
    archiveNewRest header d = .err .InvalidEntryTable := by
  rw [archiveNewRest, h1]
  show (match parseEntries header.entry_count etb with
    | none => ParseResult.err Error.InvalidEntryTable
    | some entry_table => parseSegments header entry_table r2) =
    ParseResult.err Error.InvalidEntryTable
  rw [h2]

theorem archiveNewRest_ok_step (header : ArchiveHeader) {d etb r2 : List Nat}
    {entries : List ArchiveTableEntry}
    (h1 : splitAtChecked (header.entry_count * 56) d = some (etb, r2))
    (h2 : parseEntries header.entry_count etb = some entries) :
    archiveNewRest header d = parseSegments header entries r2 := by
  rw [archiveNewRest, h1]
  show (match parseEntries header.entry_count etb with
    | none => ParseResult.err Error.InvalidEntryTable
    | some entry_table => parseSegments header entry_table r2) =
    parseSegments header entries r2
  rw [h2]

theorem parseSegments_panic_names (header : ArchiveHeader)
    (et : List ArchiveTableEntry) {d : List Nat}
    (h : splitAtChecked header.names_size d = none) :
    parseSegments header et d = .panic := by
  rw [parseSegments, h]

theorem parseSegments_panic_extra (header : ArchiveHeader)
    (et : List ArchiveTableEntry) {d nb r3 : List Nat}
    (h1 : splitAtChecked header.names_size d = some (nb, r3))
    (h2 : splitAtChecked header.extra_data_size r3 = none) :
    parseSegments header et d = .panic := by
  rw [parseSegments, h1]
  show (match splitAtChecked header.extra_data_size r3 with
    | none => ParseResult.panic
    | some (extra_data_bytes, data) =>
      ParseResult.ok { header := header, entry_table := et, names := nb,
                       extra_data := extra_data_bytes, data := data }) =
    ParseResult.panic
  rw [h2]

theorem parseSegments_ok (header : ArchiveHeader) (et : List ArchiveTableEntry)
    {d nb r3 xb dp : List Nat}
    (h1 : splitAtChecked header.names_size d = some (nb, r3))
    (h2 : splitAtChecked header.extra_data_size r3 = some (xb, dp)) :
    parseSegments header et d =
      .ok { header := header, entry_table := et, names := nb,
            extra_data := xb, data := dp } := by
  rw [parseSegments, h1]
  show (match splitAtChecked header.extra_data_size r3 with
    | none => ParseResult.panic
    | some (extra_data_bytes, data) =>
      ParseResult.ok { header := header, entry_table := et, names := nb,
                       extra_data := extra_data_bytes, data := data }) =
    ParseResult.ok { header := header, entry_table := et, names := nb,
                     extra_data := xb, data := dp }
  rw [h2]

theorem leToNat_u32ToLe' (n : Nat) : leToNat (u32ToLe n) = n % 2 ^ 32 := by
  simp only [u32ToLe, leToNat]
  omega

theorem leToNat_u64ToLe' (n : Nat) : leToNat (u64ToLe n) = n % 2 ^ 64 := by
  simp only [u64ToLe, leToNat]
  omega

/-! ## Signature and table-entry wire round-trips -/

theorem signatureToBytes_length (s : Signature) : (signatureToBytes s).length = 8 := by
  simp [signatureToBytes, u32ToLe]

theorem signatureFromBytes_toBytes (s : Signature) (h : s.wf) :
    signatureFromBytes (signatureToBytes s) = some s := by
  have h4 : (u32ToLe s.tag).length = 4 := u32ToLe_length _
  have T : (signatureToBytes s).take 4 = u32ToLe s.tag := by
    simp only [signatureToBytes]; exact List.take_left' h4
  have D : (signatureToBytes s).drop 4 = u32ToLe s.payload := by
    simp only [signatureToBytes]; exact List.drop_left' h4
  have T2 : (u32ToLe s.payload).take 4 = u32ToLe s.payload :=
    List.take_of_length_le (by rw [u32ToLe_length])
  simp only [signatureFromBytes, T, D, T2, leToNat_u32ToLe']
  cases s with
  | File => norm_num [Signature.tag]
  | Directory => norm_num [Signature.tag]
  | OS c =>
    have hc : c < 2 ^ 32 := h
    norm_num [Signature.tag, Signature.payload]
    omega

theorem tableEntryFromBytes_toBytes (te : ArchiveTableEntry) (h : te.wf) :
    tableEntryFromBytes (tableEntryToBytes te) = some te := by
  obtain ⟨hsig, h1, h2, h3, h4, h5, h6⟩ := h
  have h8 : (signatureToBytes te.signature).length = 8 := signatureToBytes_length _
  have T : (tableEntryToBytes te).take 8 = signatureToBytes te.signature := by
    simp only [tableEntryToBytes]; exact List.take_left' h8
  have D1 : (tableEntryToBytes te).drop 8 =
      u64ToLe te.name_offset ++ (u64ToLe te.name_len ++ (u64ToLe te.extra_data_offset ++
        (u64ToLe te.extra_data_len ++ (u64ToLe te.data_offset ++ u64ToLe te.data_len)))) := by
    simp only [tableEntryToBytes]; exact List.drop_left' h8
  have D2 : (tableEntryToBytes te).drop 16 =
      u64ToLe te.name_len ++ (u64ToLe te.extra_data_offset ++
        (u64ToLe te.extra_data_len ++ (u64ToLe te.data_offset ++ u64ToLe te.data_len))) := by
    have e : (tableEntryToBytes te).drop 16 = ((tableEntryToBytes te).drop 8).drop 8 := by
      rw [List.drop_drop]
    rw [e, D1, List.drop_left' (u64ToLe_length _)]
  have D3 : (tableEntryToBytes te).drop 24 =
      u64ToLe te.extra_data_offset ++
        (u64ToLe te.extra_data_len ++ (u64ToLe te.data_offset ++ u64ToLe te.data_len)) := by
    have e : (tableEntryToBytes te).drop 24 = ((tableEntryToBytes te).drop 16).drop 8 := by
      rw [List.drop_drop]
    rw [e, D2, List.drop_left' (u64ToLe_length _)]
  have D4 : (tableEntryToBytes te).drop 32 =
      u64ToLe te.extra_data_len ++ (u64ToLe te.data_offset ++ u64ToLe te.data_len) := by
    have e : (tableEntryToBytes te).drop 32 = ((tableEntryToBytes te).drop 24).drop 8 := by
      rw [List.drop_drop]
    rw [e, D3, List.drop_left' (u64ToLe_length _)]
  have D5 : (tableEntryToBytes te).drop 40 =
      u64ToLe te.data_offset ++ u64ToLe te.data_len := by
    have e : (tableEntryToBytes te).drop 40 = ((tableEntryToBytes te).drop 32).drop 8 := by
      rw [List.drop_drop]
    rw [e, D4, List.drop_left' (u64ToLe_length _)]
  have D6 : (tableEntryToBytes te).drop 48 = u64ToLe te.data_len := by
    have e : (tableEntryToBytes te).drop 48 = ((tableEntryToBytes te).drop 40).drop 8 := by
      rw [List.drop_drop]
    rw [e, D5, List.drop_left' (u64ToLe_length _)]
  have Tlast : (u64ToLe te.data_len).take 8 = u64ToLe te.data_len :=
    List.take_of_length_le (by rw [u64ToLe_length])
  simp only [tableEntryFromBytes, T, D1, D2, D3, D4, D5, D6,
    signatureFromBytes_toBytes te.signature hsig,
    List.take_left' (u64ToLe_length _), Tlast, leToNat_u64ToLe',
    Nat.mod_eq_of_lt h1, Nat.mod_eq_of_lt h2, Nat.mod_eq_of_lt h3,
    Nat.mod_eq_of_lt h4, Nat.mod_eq_of_lt h5, Nat.mod_eq_of_lt h6]

/-! ## Header wire round-trip -/

theorem headerToBytes_length (h : ArchiveHeader) (hm : h.magic.length = 8) :
    (headerToBytes h).length = 40 := by
  simp [headerToBytes, u32ToLe, u64ToLe, hm]

theorem headerOfBytes_toBytes (h : ArchiveHeader) (hm : h.magic = MAGIC)
    (hv : h.version = VERSION_0_0_1_0) (hc : h.entry_count < 2 ^ 32)
    (hn : h.names_size < 2 ^ 64) (he : h.extra_data_size < 2 ^ 64)
    (hu : h.uncompressed_size < 2 ^ 64) :
    headerOfBytes (headerToBytes h) = h := by
  obtain ⟨m, v, c, n, e, u⟩ := h
  simp only at hm hv hc hn he hu
  subst hm; subst hv
  have e1 : (headerToBytes ⟨MAGIC, VERSION_0_0_1_0, c, n, e, u⟩).take 8 = MAGIC := rfl
  have e2 : ((headerToBytes ⟨MAGIC, VERSION_0_0_1_0, c, n, e, u⟩).drop 8).take 4 =
      u32ToLe VERSION_0_0_1_0 := rfl
  have e3 : ((headerToBytes ⟨MAGIC, VERSION_0_0_1_0, c, n, e, u⟩).drop 12).take 4 =
      u32ToLe c := rfl
  have e4 : ((headerToBytes ⟨MAGIC, VERSION_0_0_1_0, c, n, e, u⟩).drop 16).take 8 =
      u64ToLe n := rfl
  have e5 : ((headerToBytes ⟨MAGIC, VERSION_0_0_1_0, c, n, e, u⟩).drop 24).take 8 =
      u64ToLe e := rfl
  have e6 : ((headerToBytes ⟨MAGIC, VERSION_0_0_1_0, c, n, e, u⟩).drop 32).take 8 =
      u64ToLe u := rfl
  have hvlt : VERSION_0_0_1_0 < 2 ^ 32 := by norm_num [VERSION_0_0_1_0, leToNat]
  simp only [headerOfBytes, e1, e2, e3, e4, e5, e6, leToNat_u32ToLe _ hvlt,
    leToNat_u32ToLe _ hc, leToNat_u64ToLe _ hn, leToNat_u64ToLe _ he,
    leToNat_u64ToLe _ hu]

theorem headerFromBytes_toBytes (h : ArchiveHeader) (hm : h.magic = MAGIC)
    (hv : h.version = VERSION_0_0_1_0) (hc : h.entry_count < 2 ^ 32)
    (hn : h.names_size < 2 ^ 64) (he : h.extra_data_size < 2 ^ 64)
    (hu : h.uncompressed_size < 2 ^ 64) :
    headerFromBytes (headerToBytes h) = .ok h := by
  have hlen : (headerToBytes h).length = 40 :=
    headerToBytes_length h (by rw [hm]; rfl)
  have hO := headerOfBytes_toBytes h hm hv hc hn he hu
  rw [headerFromBytes, if_neg (by omega), if_neg (by rw [hO, hm]; simp),
    if_neg (by rw [hO, hv]; decide), hO]

/-! ## Entry-table parsing lemmas -/

theorem tableEntryToBytes_flatten_length (l : List ArchiveTableEntry) :
    ((l.map tableEntryToBytes).flatten).length = 56 * l.length := by
  induction l with
  | nil => rfl
  | cons te rest ih =>
    simp only [List.map_cons, List.flatten_cons, List.length_append,
      tableEntryToBytes_length, ih, List.length_cons]
    ring

theorem parseEntries_flatten (l : List ArchiveTableEntry) (hw : ∀ te ∈ l, te.wf) :
    parseEntries l.length ((l.map tableEntryToBytes).flatten) = some l := by
  induction l with
  | nil => rfl
  | cons te rest ih =>
    have h56 : (tableEntryToBytes te).length = 56 := tableEntryToBytes_length te
    have hT : (tableEntryToBytes te ++ (rest.map tableEntryToBytes).flatten).take 56 =
        tableEntryToBytes te := List.take_left' h56
    have hD : (tableEntryToBytes te ++ (rest.map tableEntryToBytes).flatten).drop 56 =
        (rest.map tableEntryToBytes).flatten := List.drop_left' h56
    simp only [List.length_cons, List.map_cons, List.flatten_cons, parseEntries, hT, hD,
      tableEntryFromBytes_toBytes te (hw te (by simp)),
      ih (fun x hx => hw x (by simp [hx]))]

theorem signatureFromBytes_eq_none_iff (bs : List Nat) :
    signatureFromBytes bs = none ↔ sigTagValid (leToNat (bs.take 4)) = false := by
  unfold signatureFromBytes sigTagValid
  split_ifs <;> simp_all

theorem tableEntryFromBytes_eq_none_iff (bs : List Nat) :
    tableEntryFromBytes bs = none ↔ sigTagValid (leToNat (bs.take 4)) = false := by
  have ht : (bs.take 8).take 4 = bs.take 4 := by
    rw [List.take_take]; norm_num
  cases hS : signatureFromBytes (bs.take 8) with
  | none =>
    have := (signatureFromBytes_eq_none_iff (bs.take 8)).mp hS
    rw [ht] at this
    simp [tableEntryFromBytes, hS, this]
  | some s =>
    have hnf : ¬ (sigTagValid (leToNat (bs.take 4)) = false) := by
      intro hf
      have := (signatureFromBytes_eq_none_iff (bs.take 8)).mpr (by rw [ht]; exact hf)
      rw [this] at hS
      exact Option.noConfusion hS
    simp [tableEntryFromBytes, hS, hnf]

theorem parseEntries_eq_none_of_bad (n : Nat) (bytes : List Nat) (i : Nat)
    (hi : i < n) (hbad : sigTagValid (entryTagAt bytes i) = false) :
    parseEntries n bytes = none := by
  induction n generalizing bytes i with
  | zero => omega
  | succ m ih =>
    cases i with
    | zero =>
      have hE : tableEntryFromBytes (bytes.take 56) = none := by
        rw [tableEntryFromBytes_eq_none_iff]
        have ht : (bytes.take 56).take 4 = bytes.take 4 := by
          rw [List.take_take]; norm_num
        rw [ht]
        simpa [entryTagAt] using hbad
      simp [parseEntries, hE]
    | succ j =>
      have htag : entryTagAt (bytes.drop 56) j = entryTagAt bytes (j + 1) := by
        unfold entryTagAt
        rw [List.drop_drop]
        have : 56 + 56 * j = 56 * (j + 1) := by ring
        rw [this]
      have hrec : parseEntries m (bytes.drop 56) = none :=
        ih (bytes.drop 56) j (by omega) (by rw [htag]; exact hbad)
      cases hE : tableEntryFromBytes (bytes.take 56) with
      | none => simp [parseEntries, hE]
      | some e => simp [parseEntries, hE, hrec]

theorem parseEntries_isSome_of_valid (n : Nat) (bytes : List Nat)
    (hv : ∀ i, i < n → sigTagValid (entryTagAt bytes i) = true) :
    ∃ l, parseEntries n bytes = some l := by
  induction n generalizing bytes with
  | zero => exact ⟨[], rfl⟩
  | succ m ih =>
    cases hE : tableEntryFromBytes (bytes.take 56) with
    | none =>
      exfalso
      rw [tableEntryFromBytes_eq_none_iff] at hE
      have ht56 : (bytes.take 56).take 4 = bytes.take 4 := by
        rw [List.take_take]; norm_num
      rw [ht56] at hE
      have h0 := hv 0 (by omega)
      have ht : entryTagAt bytes 0 = leToNat (bytes.take 4) := by
        simp [entryTagAt]
      rw [ht] at h0
      rw [h0] at hE
      exact Bool.noConfusion hE
    | some e =>
      have hv' : ∀ i, i < m → sigTagValid (entryTagAt (bytes.drop 56) i) = true := by
        intro i hi
        have htag : entryTagAt (bytes.drop 56) i = entryTagAt bytes (i + 1) := by
          unfold entryTagAt
          rw [List.drop_drop]
          have : 56 + 56 * i = 56 * (i + 1) := by ring
          rw [this]
        rw [htag]
        exact hv (i + 1) (by omega)
      obtain ⟨l, hl⟩ := ih (bytes.drop 56) hv'
      exact ⟨e :: l, by simp [parseEntries, hE, hl]⟩

theorem entryTagAt_segment (b : List Nat) (count i : Nat) (hi : i < count) :
    entryTagAt ((b.drop 40).take (count * 56)) i = tagAt b i := by
  unfold entryTagAt tagAt
  rw [List.drop_take, List.take_take, List.drop_drop]
  have hmin : min 4 (count * 56 - 56 * i) = 4 := by
    have : 56 * (i + 1) ≤ 56 * count := by omega
    omega
  rw [hmin]

/-! ## Forward iteration lemmas -/

theorem drainForward_eq (fuel : Nat) (it : ArchiveIterator)
    (hfuel : it.entries.length - it.index < fuel) :
    drainForward fuel it =
      materializeAll (it.entries.drop it.index) it.names it.extra_data it.data := by
  induction fuel generalizing it with
  | zero => omega
  | succ f ih =>
    by_cases hidx : it.entries.length ≤ it.index
    · have hget : it.entries.get? it.index = none := List.get?_eq_none.mpr hidx
      have hdrop : it.entries.drop it.index = [] := List.drop_eq_nil_of_le hidx
      simp only [drainForward, iterNext, hget, hdrop, materializeAll]
    · push_neg at hidx
      have hget : it.entries.get? it.index = some (it.entries.get ⟨it.index, hidx⟩) :=
        List.get?_eq_get hidx
      have hdrop : it.entries.drop it.index =
          it.entries.get ⟨it.index, hidx⟩ :: it.entries.drop (it.index + 1) := by
        rw [List.drop_eq_getElem_cons hidx]
        rfl
      have hih := ih { it with index := it.index + 1 } (by simp only []; omega)
      cases hF : fromTableEntry (it.entries.get ⟨it.index, hidx⟩) it.names
          it.extra_data it.data with
      | panic =>
        simp only [drainForward, iterNext, hget, hF, hdrop, materializeAll]
      | ok e =>
        simp only [drainForward, iterNext, hget, hF, hih, hdrop, materializeAll]
        cases materializeAll (it.entries.drop (it.index + 1)) it.names it.extra_data
            it.data <;> simp

theorem materializeAll_expected (specs : List EntrySpec) (pn pe pd : List Nat)
    (hvalid : ∀ s ∈ specs, isValidUtf8 s.2.1 = true) :
    materializeAll (expectedEntries pn.length pe.length pd.length specs)
      (pn ++ joinNames specs) (pe ++ joinExtra specs) (pd ++ joinData specs) =
      some (specs.map expectedView) := by
  induction specs generalizing pn pe pd with
  | nil => simp [materializeAll, expectedEntries]
  | cons s rest ih =>
    obtain ⟨sig, nm, ex, da⟩ := s
    have hv1 : isValidUtf8 nm = true := by
      simpa using hvalid (sig, nm, ex, da) (by simp)
    have hvr : ∀ x ∈ rest, isValidUtf8 x.2.1 = true := fun x hx => hvalid x (by simp [hx])
    have hJN : joinNames ((sig, nm, ex, da) :: rest) = nm ++ joinNames rest := by
      simp [joinNames]
    have hJE : joinExtra ((sig, nm, ex, da) :: rest) = ex ++ joinExtra rest := by
      simp [joinExtra]
    have hJD : joinData ((sig, nm, ex, da) :: rest) = da ++ joinData rest := by
      simp [joinData]
    rw [hJN, hJE, hJD, ← List.append_assoc, ← List.append_assoc, ← List.append_assoc]
    simp only [expectedEntries, materializeAll, fromTableEntry]
    rw [sliceRange_append pn nm (joinNames rest),
      sliceRange_append pe ex (joinExtra rest),
      sliceRange_append pd da (joinData rest)]
    simp only [hv1, if_true]
    have ihs := ih (pn ++ nm) (pe ++ ex) (pd ++ da) hvr
    simp only [List.length_append] at ihs
    rw [ihs]
    simp [expectedView]

/-! ## Builder characterization -/

theorem foldl_pushEntry (specs : List EntrySpec) (b : ArchiveBuilder) :
    specs.foldl (fun b s => b.pushEntry s.1 s.2.1 s.2.2.1 s.2.2.2) b =
      { names := b.names ++ joinNames specs
        extra_data := b.extra_data ++ joinExtra specs
        data := b.data ++ joinData specs
        table_entries := b.table_entries ++
          expectedEntries b.names.length b.extra_data.length b.data.length specs } := by
  induction specs generalizing b with
  | nil => simp [joinNames, joinExtra, joinData, expectedEntries]
  | cons s rest ih =>
    simp only [List.foldl_cons]
    rw [ih]
    simp [ArchiveBuilder.pushEntry, joinNames, joinExtra, joinData, expectedEntries,
      List.append_assoc]

theorem buildAll_eq (specs : List EntrySpec) :
    buildAll specs =
      { names := joinNames specs, extra_data := joinExtra specs,
        data := joinData specs, table_entries := expectedEntries 0 0 0 specs } := by
  rw [buildAll, foldl_pushEntry]
  simp [ArchiveBuilder.new]

theorem expectedEntries_length (no eo po : Nat) (specs : List EntrySpec) :
    (expectedEntries no eo po specs).length = specs.length := by
  induction specs generalizing no eo po with
  | nil => rfl
  | cons s rest ih => simp [expectedEntries, ih]

theorem expectedEntries_signatures (no eo po : Nat) (specs : List EntrySpec) :
    (expectedEntries no eo po specs).map (·.signature) = specs.map (·.1) := by
  induction specs generalizing no eo po with
  | nil => rfl
  | cons s rest ih => simp [expectedEntries, ih]

theorem expectedEntries_bounds (specs : List EntrySpec) (no eo po : Nat) :
    ∀ te ∈ expectedEntries no eo po specs,
      te.name_offset + te.name_len ≤ no + (joinNames specs).length ∧
      te.extra_data_offset + te.extra_data_len ≤ eo + (joinExtra specs).length ∧
      te.data_offset + te.data_len ≤ po + (joinData specs).length := by
  induction specs generalizing no eo po with
  | nil => intro te hte; exact absurd hte (by simp [expectedEntries])
  | cons s rest ih =>
    intro te hte
    have hJN : (joinNames (s :: rest)).length = s.2.1.length + (joinNames rest).length := by
      simp [joinNames]
    have hJE : (joinExtra (s :: rest)).length = s.2.2.1.length + (joinExtra rest).length := by
      simp [joinExtra]
    have hJD : (joinData (s :: rest)).length = s.2.2.2.length + (joinData rest).length := by
      simp [joinData]
    simp only [expectedEntries, List.mem_cons] at hte
    rcases hte with rfl | hte
    · simp only [hJN, hJE, hJD]
      omega
    · have := ih (no + s.2.1.length) (eo + s.2.2.1.length) (po + s.2.2.2.length) te hte
      simp only [hJN, hJE, hJD]
      omega

theorem expectedEntries_wf (specs : List EntrySpec) (no eo po : Nat)
    (hsig : ∀ s ∈ specs, s.1.wf)
    (hn : no + (joinNames specs).length < 2 ^ 64)
    (he : eo + (joinExtra specs).length < 2 ^ 64)
    (hd : po + (joinData specs).length < 2 ^ 64) :
    ∀ te ∈ expectedEntries no eo po specs, te.wf := by
  intro te hte
  have hb := expectedEntries_bounds specs no eo po te hte
  have hs : te.signature.wf := by
    have hmem : te.signature ∈ (expectedEntries no eo po specs).map (·.signature) :=
      List.mem_map_of_mem _ hte
    rw [expectedEntries_signatures] at hmem
    obtain ⟨s, hsm, hse⟩ := List.mem_map.mp hmem
    rw [← hse]
    exact hsig s hsm
  exact ⟨hs, by omega, by omega, by omega, by omega, by omega, by omega⟩

/-! ## `finish` characterization -/

theorem finishBytes_length (b : ArchiveBuilder) :
    b.finishBytes.length = b.totalSize := by
  have h40 : (headerToBytes b.finishHeader).length = 40 :=
    headerToBytes_length _ rfl
  simp only [ArchiveBuilder.finishBytes, List.length_append, h40,
    tableEntryToBytes_flatten_length, ArchiveBuilder.totalSize]
  ring

theorem finish_eq (b : ArchiveBuilder) (hfit : b.fits) :
    b.finish = some b.finishBytes := by
  rw [ArchiveBuilder.finish, if_pos hfit, if_pos (finishBytes_length b).symm]

theorem archiveNew_finishBytes (b : ArchiveBuilder) (hfit : b.fits)
    (hwf : ∀ te ∈ b.table_entries, te.wf) :
    archiveNew b.finishBytes =
      .ok { header := b.finishHeader, entry_table := b.table_entries,
            names := b.names, extra_data := b.extra_data, data := b.data } := by
  obtain ⟨hc, hn, he, hu⟩ := hfit
  have h40 : (headerToBytes b.finishHeader).length = 40 :=
    headerToBytes_length _ rfl
  have hshape : b.finishBytes = headerToBytes b.finishHeader ++
      ((b.table_entries.map tableEntryToBytes).flatten ++
        (b.names ++ (b.extra_data ++ b.data))) := by
    simp [ArchiveBuilder.finishBytes, List.append_assoc]
  have hsplit1 : splitAtChecked 40 b.finishBytes =
      some (headerToBytes b.finishHeader,
        (b.table_entries.map tableEntryToBytes).flatten ++
          (b.names ++ (b.extra_data ++ b.data))) := by
    rw [hshape, ← h40, splitAtChecked_append]
  have hhdr : headerFromBytes (headerToBytes b.finishHeader) = .ok b.finishHeader :=
    headerFromBytes_toBytes _ rfl rfl hc hn he hu
  have hflat : (b.table_entries.map tableEntryToBytes).flatten.length =
      56 * b.table_entries.length := tableEntryToBytes_flatten_length _
  have hsplit2 : splitAtChecked (b.finishHeader.entry_count * 56)
      ((b.table_entries.map tableEntryToBytes).flatten ++
        (b.names ++ (b.extra_data ++ b.data))) =
      some ((b.table_entries.map tableEntryToBytes).flatten,
        b.names ++ (b.extra_data ++ b.data)) := by
    have : b.finishHeader.entry_count * 56 =
        ((b.table_entries.map tableEntryToBytes).flatten).length := by
      rw [hflat]; simp [ArchiveBuilder.finishHeader]; ring
    rw [this, splitAtChecked_append]
  have hparse : parseEntries b.finishHeader.entry_count
      ((b.table_entries.map tableEntryToBytes).flatten) = some b.table_entries := by
    have : b.finishHeader.entry_count = b.table_entries.length := rfl
    rw [this, parseEntries_flatten _ hwf]
  have hsplit3 : splitAtChecked b.finishHeader.names_size
      (b.names ++ (b.extra_data ++ b.data)) =
      some (b.names, b.extra_data ++ b.data) := by
    have : b.finishHeader.names_size = b.names.length := rfl
    rw [this, splitAtChecked_append]
  have hsplit4 : splitAtChecked b.finishHeader.extra_data_size
      (b.extra_data ++ b.data) = some (b.extra_data, b.data) := by
    have : b.finishHeader.extra_data_size = b.extra_data.length := rfl
    rw [this, splitAtChecked_append]
  rw [archiveNew_ok_step hsplit1 hhdr,
    archiveNewRest_ok_step b.finishHeader hsplit2 hparse,
    parseSegments_ok b.finishHeader b.table_entries hsplit3 hsplit4]

/-! ## Header and whole-parse characterization -/

theorem headerOfBytes_take40 (b : List Nat) :
    headerOfBytes (b.take 40) = headerOfBytes b := by
  have h8 : (b.take 40).take 8 = b.take 8 := by
    rw [List.take_take]; norm_num
  have h12 : ((b.take 40).drop 8).take 4 = (b.drop 8).take 4 := by
    rw [List.drop_take, List.take_take]; norm_num
  have h16 : ((b.take 40).drop 12).take 4 = (b.drop 12).take 4 := by
    rw [List.drop_take, List.take_take]; norm_num
  have h24 : ((b.take 40).drop 16).take 8 = (b.drop 16).take 8 := by
    rw [List.drop_take, List.take_take]; norm_num
  have h32 : ((b.take 40).drop 24).take 8 = (b.drop 24).take 8 := by
    rw [List.drop_take, List.take_take]; norm_num
  have h40 : ((b.take 40).drop 32).take 8 = (b.drop 32).take 8 := by
    rw [List.drop_take, List.take_take]; norm_num
  simp only [headerOfBytes, h8, h12, h16, h24, h32, h40]

theorem headerFromBytes_char (b : List Nat) (hlen : 40 ≤ b.length) :
    headerFromBytes (b.take 40) =
      (if (headerOfBytes b).magic ≠ MAGIC then .error .InvalidMagic
       else if ¬ (VERSIONS.contains (headerOfBytes b).version) then .error .InvalidVersion
       else .ok (headerOfBytes b)) := by
  have hl : (b.take 40).length = 40 := by
    simp only [List.length_take]; omega
  rw [headerFromBytes, if_neg (by omega), headerOfBytes_take40]


theorem archiveNewRest_outcomes (header : ArchiveHeader) (d : List Nat) :
    archiveNewRest header d = .panic ∨
    archiveNewRest header d = .err .InvalidEntryTable ∨
    ∃ a, archiveNewRest header d = .ok a ∧ a.header = header := by
  cases hT : splitAtChecked (header.entry_count * 56) d with
  | none => exact Or.inl (archiveNewRest_panic header hT)
  | some q =>
    obtain ⟨etb, r2⟩ := q
    cases hP : parseEntries header.entry_count etb with
    | none => exact Or.inr (Or.inl (archiveNewRest_invalid header hT hP))
    | some entries =>
      rw [archiveNewRest_ok_step header hT hP]
      cases hN : splitAtChecked header.names_size r2 with
      | none => exact Or.inl (parseSegments_panic_names header entries hN)
      | some r =>
        obtain ⟨nb, r3⟩ := r
        cases hX : splitAtChecked header.extra_data_size r3 with
        | none => exact Or.inl (parseSegments_panic_extra header entries hN hX)
        | some s =>
          obtain ⟨xb, dp⟩ := s
          exact Or.inr (Or.inr ⟨_, parseSegments_ok header entries hN hX, rfl⟩)

theorem headerFromBytes_error_cases {hb : List Nat} {e : Error}
    (hlen : hb.length = 40) (hH : headerFromBytes hb = .error e) :
    e = .InvalidMagic ∨ e = .InvalidVersion := by
  rw [headerFromBytes, if_neg (by omega)] at hH
  split_ifs at hH with h1 h2
  · exact Or.inl (by injection hH with h; exact h.symm)
  · exact Or.inr (by injection hH with h; exact h.symm)

theorem archiveNew_outcomes (b : List Nat) :
    archiveNew b = .panic ∨ archiveNew b = .err .InvalidMagic ∨
    archiveNew b = .err .InvalidVersion ∨ archiveNew b = .err .InvalidEntryTable ∨
    ∃ a, archiveNew b = .ok a := by
  by_cases hlen : 40 ≤ b.length
  · have hS : splitAtChecked 40 b = some (b.take 40, b.drop 40) :=
      splitAtChecked_of_le hlen
    have hl : (b.take 40).length = 40 := by
      simp only [List.length_take]; omega
    cases hH : headerFromBytes (b.take 40) with
    | error e =>
      rcases headerFromBytes_error_cases hl hH with rfl | rfl
      · exact Or.inr (Or.inl (archiveNew_err hS hH))
      · exact Or.inr (Or.inr (Or.inl (archiveNew_err hS hH)))
    | ok header =>
      rw [archiveNew_ok_step hS hH]
      rcases archiveNewRest_outcomes header (b.drop 40) with h | h | ⟨a, ha, _⟩
      · exact Or.inl h
      · exact Or.inr (Or.inr (Or.inr (Or.inl h)))
      · exact Or.inr (Or.inr (Or.inr (Or.inr ⟨a, ha⟩)))
  · exact Or.inl (archiveNew_panic (splitAtChecked_of_gt (by omega)))

/-- Outcomes of `archiveNewRest` depend on the header only through
`entry_count`, `names_size` and `extra_data_size`; the remaining fields are
merely stored. Two headers differing only in `uncompressed_size` therefore
produce outcomes equal up to that stored field. -/
theorem archiveNewRest_congr (h1 h2 : ArchiveHeader) (d : List Nat)
    (hm : h1.magic = h2.magic) (hv : h1.version = h2.version)
    (hc : h1.entry_count = h2.entry_count) (hn : h1.names_size = h2.names_size)
    (he : h1.extra_data_size = h2.extra_data_size) :
    stripUncompressed (archiveNewRest h1 d) =
      stripUncompressed (archiveNewRest h2 d) := by
  obtain ⟨m1, v1, c1, n1, e1, u1⟩ := h1
  obtain ⟨m2, v2, c2, n2, e2, u2⟩ := h2
  simp only at hm hv hc hn he
  subst hm; subst hv; subst hc; subst hn; subst he
  cases hT : splitAtChecked (c1 * 56) d with
  | none =>
    rw [archiveNewRest_panic ⟨m1, v1, c1, n1, e1, u1⟩ hT,
      archiveNewRest_panic ⟨m1, v1, c1, n1, e1, u2⟩ hT]
  | some q =>
    obtain ⟨etb, r2⟩ := q
    cases hP : parseEntries c1 etb with
    | none =>
      rw [archiveNewRest_invalid ⟨m1, v1, c1, n1, e1, u1⟩ hT hP,
        archiveNewRest_invalid ⟨m1, v1, c1, n1, e1, u2⟩ hT hP]
    | some entries =>
      rw [archiveNewRest_ok_step ⟨m1, v1, c1, n1, e1, u1⟩ hT hP,
        archiveNewRest_ok_step ⟨m1, v1, c1, n1, e1, u2⟩ hT hP]
      cases hN : splitAtChecked n1 r2 with
      | none =>
        rw [parseSegments_panic_names ⟨m1, v1, c1, n1, e1, u1⟩ entries hN,
          parseSegments_panic_names ⟨m1, v1, c1, n1, e1, u2⟩ entries hN]
      | some r =>
        obtain ⟨nb, r3⟩ := r
        cases hX : splitAtChecked e1 r3 with
        | none =>
          rw [parseSegments_panic_extra ⟨m1, v1, c1, n1, e1, u1⟩ entries hN hX,
            parseSegments_panic_extra ⟨m1, v1, c1, n1, e1, u2⟩ entries hN hX]
        | some s =>
          obtain ⟨xb, dp⟩ := s
          rw [parseSegments_ok ⟨m1, v1, c1, n1, e1, u1⟩ entries hN hX,
            parseSegments_ok ⟨m1, v1, c1, n1, e1, u2⟩ entries hN hX]
          simp [stripUncompressed]

/-! ## Round-trip assembly lemmas -/

theorem materializeAll_expected0 (specs : List EntrySpec)
    (hvalid : ∀ s ∈ specs, isValidUtf8 s.2.1 = true) :
    materializeAll (expectedEntries 0 0 0 specs)
      (joinNames specs) (joinExtra specs) (joinData specs) =
      some (specs.map expectedView) := by
  have h := materializeAll_expected specs [] [] [] hvalid
  simpa using h

theorem fits_of_buildAll (specs : List EntrySpec) (h : (buildAll specs).fits) :
    specs.length < 2 ^ 32 ∧ (joinNames specs).length < 2 ^ 64 ∧
    (joinExtra specs).length < 2 ^ 64 ∧ (joinData specs).length < 2 ^ 64 := by
  rw [buildAll_eq] at h
  obtain ⟨hc, hn, he, hu⟩ := h
  have hc' : (expectedEntries 0 0 0 specs).length < 2 ^ 32 := hc
  have hu' : 40 + (joinNames specs).length + (joinExtra specs).length +
      56 * (expectedEntries 0 0 0 specs).length + (joinData specs).length < 2 ^ 64 := hu
  rw [expectedEntries_length] at hc'
  exact ⟨hc', hn, he, by omega⟩

/-! ## Claim theorems -/

/-- C1: Round-trip. For every sequence of (signature, name, extra_data,
payload) tuples pushed via `push_entry` in order (names valid UTF-8, `OS`
codes fitting `u32`, sizes fitting the wire widths so `finish` does not
panic), parsing `finish()`'s bytes with `Archive::new` succeeds, the decoded
table carries the pushed signatures in push order, and fully iterating the
archive yields exactly one entry per pushed tuple, in push order, with
byte-identical name, extra_data, and payload. -/
theorem C1_round_trip (specs : List EntrySpec)
    (hname : ∀ s ∈ specs, isValidUtf8 s.2.1 = true)
    (hsig : ∀ s ∈ specs, s.1.wf)
    (hfits : (buildAll specs).fits) :
    ∃ arch,
      (buildAll specs).finish = some (buildAll specs).finishBytes ∧
      archiveNew (buildAll specs).finishBytes = .ok arch ∧
      arch.entry_table.map (·.signature) = specs.map (·.1) ∧
      drainForward (specs.length + 1) arch.iter = some (specs.map expectedView) := by
  have hfb := fits_of_buildAll specs hfits
  have hwf : ∀ te ∈ (buildAll specs).table_entries, te.wf := by
    rw [buildAll_eq]
    intro te hte
    exact expectedEntries_wf specs 0 0 0 hsig (by simpa using hfb.2.1)
      (by simpa using hfb.2.2.1) (by simpa using hfb.2.2.2) te hte
  have hOK := archiveNew_finishBytes (buildAll specs) hfits hwf
  have hlen : ((buildAll specs).table_entries).length = specs.length := by
    rw [buildAll_eq]
    exact expectedEntries_length 0 0 0 specs
  refine ⟨_, finish_eq _ hfits, hOK, ?_, ?_⟩
  · show (buildAll specs).table_entries.map (·.signature) = specs.map (·.1)
    rw [buildAll_eq]
    exact expectedEntries_signatures 0 0 0 specs
  · show drainForward (specs.length + 1)
      (Archive.iter
        { header := (buildAll specs).finishHeader,
          entry_table := (buildAll specs).table_entries,
          names := (buildAll specs).names,
          extra_data := (buildAll specs).extra_data,
          data := (buildAll specs).data }) = some (specs.map expectedView)
    rw [drainForward_eq (specs.length + 1) _ (by simp only [Archive.iter]; omega)]
    show materializeAll ((buildAll specs).table_entries.drop 0)
      (buildAll specs).names (buildAll specs).extra_data (buildAll specs).data =
      some (specs.map expectedView)
    rw [List.drop_zero, buildAll_eq]
    exact materializeAll_expected0 specs hname

/-- Concrete records used to witness `C1_round_trip`: push (`File`, "a", [],
"hi") then (`Directory`, "bc", [1,2], []). -/
def witnessSpecs : List EntrySpec :=
  [(.File, [97], [], [104, 105]), (.Directory, [98, 99], [1, 2], [])]

/-- Witness for C1 at a concrete two-record push sequence. -/
theorem C1_round_trip_witness :
    ((∀ s ∈ witnessSpecs, isValidUtf8 s.2.1 = true) ∧
      (∀ s ∈ witnessSpecs, s.1.wf) ∧ (buildAll witnessSpecs).fits) ∧
    (∃ arch,
      (buildAll witnessSpecs).finish = some (buildAll witnessSpecs).finishBytes ∧
      archiveNew (buildAll witnessSpecs).finishBytes = .ok arch ∧
      arch.entry_table.map (·.signature) = witnessSpecs.map (·.1) ∧
      drainForward (witnessSpecs.length + 1) arch.iter =
        some (witnessSpecs.map expectedView)) :=
  ⟨⟨by decide, by decide, by decide⟩,
    C1_round_trip witnessSpecs (by decide) (by decide) (by decide)⟩

/-- C2: the claim says buffers shorter than the header yield the typed error
`IncompleteHeader` and buffers truncated inside the declared segments yield
`IncompleteData`. The code instead panics in `split_at` (the `TODO
pre-handle panic conditions` comment in `Archive::new`): a 39-byte buffer
panics, a valid 40-byte header whose declared 1-entry table is missing
panics, and no input at all can produce `IncompleteHeader` or
`IncompleteData` from `Archive::new`. -/
theorem C2_truncation_panics :
    archiveNew (List.replicate 39 0) = .panic ∧
    archiveNew (headerToBytes
      { magic := MAGIC, version := VERSION_0_0_1_0, entry_count := 1,
        names_size := 0, extra_data_size := 0, uncompressed_size := 96 }) = .panic ∧
    ∀ b : List Nat, archiveNew b ≠ .err .IncompleteHeader ∧
      archiveNew b ≠ .err .IncompleteData := by
  refine ⟨by decide, by decide, ?_⟩
  intro b
  rcases archiveNew_outcomes b with h | h | h | h | ⟨a, h⟩ <;> rw [h] <;>
    exact ⟨by simp, by simp⟩

/-- C3: the claim says an entry whose offset+length exceeds its segment is
reported as a typed decode error at materialization. The code instead
panics: `oobBuf` parses successfully, its only entry claims one name byte
inside an empty names segment, and the first iterator step panics (range
indexing out of bounds) instead of returning an error. -/
theorem C3_oob_entry_panics :
    archiveNew oobBuf = .ok oobArchive ∧
    (∀ te ∈ oobArchive.entry_table,
      oobArchive.names.length < te.name_offset + te.name_len) ∧
    iterNext oobArchive.iter = .panic := by
  refine ⟨by decide, by decide, by decide⟩

/-- C4: the claim says a non-UTF-8 name slice is reported as an
`InvalidEntryTable`-class decode error. The code instead panics: the name
slice of `badUtf8Buf`'s only entry is in bounds but is the invalid byte
`0xFF`, and the `.expect(..)` on `core::str::from_utf8` aborts the
iterator step. -/
theorem C4_invalid_utf8_panics :
    archiveNew badUtf8Buf = .ok badUtf8Archive ∧
    badUtf8Archive.names = [255] ∧
    isValidUtf8 [255] = false ∧
    (∀ te ∈ badUtf8Archive.entry_table,
      te.name_offset + te.name_len ≤ badUtf8Archive.names.length) ∧
    iterNext badUtf8Archive.iter = .panic := by
  refine ⟨by decide, by decide, by decide, by decide, by decide⟩

set_option maxRecDepth 10000 in
/-- C5: the claim says forward and backward full consumption yield reverse
sequences and `len()` counts the remaining entries. Forward consumption of
the two-entry archive works, but `next_back` reads the entry at the *front*
cursor and then decrements the front index: on a fresh iterator the very
first `next_back` underflows `index -= 1` (a panic), so backward
consumption cannot yield the reverse sequence. -/
theorem C5_next_back_broken :
    twoEntryBuilder.finish = some twoEntryBuilder.finishBytes ∧
    archiveNew twoEntryBuilder.finishBytes = .ok twoEntryArchive ∧
    drainForward 3 twoEntryArchive.iter =
      some [{ name := [97], extra_data := [], data := [104, 105] },
            { name := [98, 99], extra_data := [1, 2], data := [] }] ∧
    iterLen twoEntryArchive.iter = 2 ∧
    iterNextBack twoEntryArchive.iter = .panic := by
  refine ⟨by decide, by decide, by decide, by decide, by decide⟩

/-- C7: for every builder whose sizes fit the wire widths, `finish` returns
(rather than aborting) the byte sequence laid out as header, table-entry
array, names, extra data, payload, in that order; the header's total-size
field is the exact sum `size(Header) + entry_count·size(TableEntry) +
names_size + extra_data_size + payload size`; and the produced byte
sequence's length equals that total, so the internal
`assert_eq!(total_size, archive_bytes.len())` always holds. -/
theorem C7_finish_layout (b : ArchiveBuilder) (hfits : b.fits) :
    b.finish = some (headerToBytes b.finishHeader ++
      (b.table_entries.map tableEntryToBytes).flatten ++
      b.names ++ b.extra_data ++ b.data) ∧
    b.finishHeader.uncompressed_size =
      40 + b.table_entries.length * 56 + b.names.length + b.extra_data.length +
        b.data.length ∧
    (headerToBytes b.finishHeader ++ (b.table_entries.map tableEntryToBytes).flatten ++
      b.names ++ b.extra_data ++ b.data).length = b.finishHeader.uncompressed_size := by
  refine ⟨finish_eq b hfits, ?_, ?_⟩
  · show b.totalSize = 40 + b.table_entries.length * 56 + b.names.length +
      b.extra_data.length + b.data.length
    rw [ArchiveBuilder.totalSize]
    ring
  · show b.finishBytes.length = b.totalSize
    exact finishBytes_length b

/-- Witness for C7 at the concrete two-entry builder. -/
theorem C7_finish_layout_witness :
    twoEntryBuilder.fits ∧
    (twoEntryBuilder.finish = some (headerToBytes twoEntryBuilder.finishHeader ++
      (twoEntryBuilder.table_entries.map tableEntryToBytes).flatten ++
      twoEntryBuilder.names ++ twoEntryBuilder.extra_data ++ twoEntryBuilder.data) ∧
    twoEntryBuilder.finishHeader.uncompressed_size =
      40 + twoEntryBuilder.table_entries.length * 56 + twoEntryBuilder.names.length +
        twoEntryBuilder.extra_data.length + twoEntryBuilder.data.length ∧
    (headerToBytes twoEntryBuilder.finishHeader ++
      (twoEntryBuilder.table_entries.map tableEntryToBytes).flatten ++
      twoEntryBuilder.names ++ twoEntryBuilder.extra_data ++
      twoEntryBuilder.data).length = twoEntryBuilder.finishHeader.uncompressed_size) :=
  ⟨by decide, C7_finish_layout twoEntryBuilder (by decide)⟩

/-- C6: with a valid header and enough bytes for the declared entry table, a
signature discriminant outside {0, 1, 2^32-1} anywhere in the table fails
the whole parse with `InvalidEntryTable`; conversely the validation accepts
exactly the discriminants 0, 1 and 2^32-1, and under the all-ones sentinel
any 32-bit embedded code is accepted. -/
theorem C6_signature_validation (b : List Nat) (count i : Nat)
    (hlen : 40 ≤ b.length)
    (hmagic : b.take 8 = MAGIC)
    (hver : VERSIONS.contains (leToNat ((b.drop 8).take 4)) = true)
    (hcount : leToNat ((b.drop 12).take 4) = count)
    (htable : 40 + count * 56 ≤ b.length)
    (hi : i < count)
    (hbad : sigTagValid (tagAt b i) = false) :
    archiveNew b = .err .InvalidEntryTable ∧
    (∀ t : Nat, sigTagValid t = true ↔ (t = 0 ∨ t = 1 ∨ t = 2 ^ 32 - 1)) ∧
    (∀ p : Nat, (signatureFromBytes (u32ToLe 0 ++ u32ToLe p)).isSome ∧
      (signatureFromBytes (u32ToLe 1 ++ u32ToLe p)).isSome) ∧
    (∀ p : Nat, p < 2 ^ 32 →
      signatureFromBytes (u32ToLe (2 ^ 32 - 1) ++ u32ToLe p) = some (.OS p)) := by
  refine ⟨?_, ?_, ?_, ?_⟩
  · have hS := splitAtChecked_of_le hlen
    have hHc := headerFromBytes_char b hlen
    have hm' : (headerOfBytes b).magic = MAGIC := hmagic
    have hv' : VERSIONS.contains (headerOfBytes b).version = true := hver
    rw [if_neg (not_not_intro hm'), if_neg (not_not_intro hv')] at hHc
    rw [archiveNew_ok_step hS hHc]
    have hcEq : (headerOfBytes b).entry_count = count := hcount
    have hlc : (headerOfBytes b).entry_count * 56 ≤ (b.drop 40).length := by
      rw [hcEq]
      simp only [List.length_drop]
      omega
    have hT := splitAtChecked_of_le hlc
    have hP : parseEntries (headerOfBytes b).entry_count
        ((b.drop 40).take ((headerOfBytes b).entry_count * 56)) = none := by
      rw [hcEq]
      apply parseEntries_eq_none_of_bad count _ i hi
      rw [entryTagAt_segment b count i hi]
      exact hbad
    exact archiveNewRest_invalid (headerOfBytes b) hT hP
  · intro t
    simp [sigTagValid, or_assoc]
  · intro p
    have h0 : ∀ q : Nat, (u32ToLe q ++ u32ToLe p).take 4 = u32ToLe q :=
      fun q => List.take_left' (u32ToLe_length q)
    constructor <;> simp [signatureFromBytes, h0, leToNat_u32ToLe']
  · intro p hp
    have h1 : (u32ToLe (2 ^ 32 - 1) ++ u32ToLe p).take 4 = u32ToLe (2 ^ 32 - 1) :=
      List.take_left' (u32ToLe_length _)
    have h2 : (u32ToLe (2 ^ 32 - 1) ++ u32ToLe p).drop 4 = u32ToLe p :=
      List.drop_left' (u32ToLe_length _)
    have h3 : (u32ToLe p).take 4 = u32ToLe p :=
      List.take_of_length_le (by rw [u32ToLe_length])
    simp only [signatureFromBytes, h1, h2, h3, leToNat_u32ToLe']
    norm_num [Nat.mod_eq_of_lt hp]
    omega

/-- A structurally valid buffer whose single table entry carries the raw
signature discriminant 2 (outside the valid set). -/
def badTagBuf : List Nat :=
  headerToBytes
    { magic := MAGIC, version := VERSION_0_0_1_0, entry_count := 1,
      names_size := 0, extra_data_size := 0, uncompressed_size := 96 } ++
  (u32ToLe 2 ++ u32ToLe 0 ++ u64ToLe 0 ++ u64ToLe 0 ++ u64ToLe 0 ++ u64ToLe 0 ++
    u64ToLe 0 ++ u64ToLe 0)

/-- Witness for C6 at `badTagBuf` (entry 0 has discriminant 2). -/
theorem C6_signature_validation_witness :
    (40 ≤ badTagBuf.length ∧ badTagBuf.take 8 = MAGIC ∧
      VERSIONS.contains (leToNat ((badTagBuf.drop 8).take 4)) = true ∧
      leToNat ((badTagBuf.drop 12).take 4) = 1 ∧
      40 + 1 * 56 ≤ badTagBuf.length ∧ (0 : Nat) < 1 ∧
      sigTagValid (tagAt badTagBuf 0) = false) ∧
    (archiveNew badTagBuf = .err .InvalidEntryTable ∧
      (∀ t : Nat, sigTagValid t = true ↔ (t = 0 ∨ t = 1 ∨ t = 2 ^ 32 - 1)) ∧
      (∀ p : Nat, (signatureFromBytes (u32ToLe 0 ++ u32ToLe p)).isSome ∧
        (signatureFromBytes (u32ToLe 1 ++ u32ToLe p)).isSome) ∧
      (∀ p : Nat, p < 2 ^ 32 →
        signatureFromBytes (u32ToLe (2 ^ 32 - 1) ++ u32ToLe p) = some (.OS p))) :=
  ⟨⟨by decide, by decide, by decide, by decide, by decide, by decide, by decide⟩,
    C6_signature_validation badTagBuf 1 0 (by decide) (by decide) (by decide)
      (by decide) (by decide) (by decide) (by decide)⟩

/-- C8: for buffers of at least header size, `Archive::new` returns
`InvalidMagic` exactly when the first 8 bytes differ from the magic
literal; with the magic right, it returns `InvalidVersion` exactly when the
4-byte version field is not in the supported-version list; and a header
passing both checks is accepted by the header parser as the raw field
extraction, with no check on entry_count or the segment sizes. -/
theorem C8_magic_version (b : List Nat) (hlen : 40 ≤ b.length) :
    (archiveNew b = .err .InvalidMagic ↔ b.take 8 ≠ MAGIC) ∧
    (archiveNew b = .err .InvalidVersion ↔
      (b.take 8 = MAGIC ∧ VERSIONS.contains (leToNat ((b.drop 8).take 4)) = false)) ∧
    (b.take 8 = MAGIC → VERSIONS.contains (leToNat ((b.drop 8).take 4)) = true →
      headerFromBytes (b.take 40) = .ok (headerOfBytes b)) := by
  have hS := splitAtChecked_of_le hlen
  have hHc := headerFromBytes_char b hlen
  by_cases hm : b.take 8 = MAGIC
  · by_cases hv : VERSIONS.contains (leToNat ((b.drop 8).take 4)) = true
    · have hm' : (headerOfBytes b).magic = MAGIC := hm
      have hv' : VERSIONS.contains (headerOfBytes b).version = true := hv
      rw [if_neg (not_not_intro hm'), if_neg (not_not_intro hv')] at hHc
      have hA : archiveNew b = archiveNewRest (headerOfBytes b) (b.drop 40) :=
        archiveNew_ok_step hS hHc
      have hout := archiveNewRest_outcomes (headerOfBytes b) (b.drop 40)
      refine ⟨⟨?_, fun hne => absurd hm hne⟩, ⟨?_, ?_⟩, fun _ _ => hHc⟩
      · intro hEq
        exfalso
        rw [hA] at hEq
        rcases hout with h | h | ⟨a, h, _⟩ <;> rw [h] at hEq <;> simp at hEq
      · intro hEq
        exfalso
        rw [hA] at hEq
        rcases hout with h | h | ⟨a, h, _⟩ <;> rw [h] at hEq <;> simp at hEq
      · rintro ⟨_, hvf⟩
        rw [hv] at hvf
        exact Bool.noConfusion hvf
    · have hm' : (headerOfBytes b).magic = MAGIC := hm
      have hv' : ¬ (VERSIONS.contains (headerOfBytes b).version = true) := hv
      rw [if_neg (not_not_intro hm'), if_pos hv'] at hHc
      have hA : archiveNew b = .err .InvalidVersion := archiveNew_err hS hHc
      refine ⟨⟨?_, fun hne => absurd hm hne⟩, ⟨?_, fun _ => hA⟩, ?_⟩
      · intro hEq
        rw [hA] at hEq
        exact absurd hEq (by simp)
      · intro _
        exact ⟨hm, by simpa using hv⟩
      · intro _ hvt
        exact absurd hvt hv
  · have hm' : ¬ ((headerOfBytes b).magic = MAGIC) := hm
    rw [if_pos hm'] at hHc
    have hA : archiveNew b = .err .InvalidMagic := archiveNew_err hS hHc
    refine ⟨⟨fun _ => hm, fun _ => hA⟩, ⟨?_, ?_⟩, fun hm8 _ => absurd hm8 hm⟩
    · intro hEq
      rw [hA] at hEq
      exact absurd hEq (by simp)
    · rintro ⟨hm8, _⟩
      exact absurd hm8 hm

/-- Witness for C8 at the all-zero 40-byte buffer (magic wrong). -/
theorem C8_magic_version_witness :
    (40 ≤ (List.replicate 40 0).length) ∧
    ((archiveNew (List.replicate 40 0) = .err .InvalidMagic ↔
        (List.replicate 40 0).take 8 ≠ MAGIC) ∧
      (archiveNew (List.replicate 40 0) = .err .InvalidVersion ↔
        ((List.replicate 40 0).take 8 = MAGIC ∧
          VERSIONS.contains (leToNat (((List.replicate 40 0).drop 8).take 4)) = false)) ∧
      ((List.replicate 40 0).take 8 = MAGIC →
        VERSIONS.contains (leToNat (((List.replicate 40 0).drop 8).take 4)) = true →
        headerFromBytes ((List.replicate 40 0).take 40) =
          .ok (headerOfBytes (List.replicate 40 0)))) :=
  ⟨by decide, C8_magic_version (List.replicate 40 0) (by decide)⟩

/-- C9: `Archive::new` never inspects the per-entry offset/length fields.
For every buffer with valid magic, version, sufficient segment bytes and
valid signature tags it returns `Ok` regardless of the offsets; and the
concrete accepted buffer `oobBuf` has an entry whose name slice exceeds its
segment, so its entries cannot all be materialized in-bounds. -/
theorem C9_lazy_bounds :
    (∀ b : List Nat,
      40 ≤ b.length →
      b.take 8 = MAGIC →
      VERSIONS.contains (leToNat ((b.drop 8).take 4)) = true →
      40 + leToNat ((b.drop 12).take 4) * 56 + leToNat ((b.drop 16).take 8) +
        leToNat ((b.drop 24).take 8) ≤ b.length →
      (∀ i, i < leToNat ((b.drop 12).take 4) → sigTagValid (tagAt b i) = true) →
      ∃ a, archiveNew b = .ok a) ∧
    (archiveNew oobBuf = .ok oobArchive ∧
      (∀ te ∈ oobArchive.entry_table,
        oobArchive.names.length < te.name_offset + te.name_len) ∧
      iterNext oobArchive.iter = .panic) := by
  constructor
  · intro b hlen hm hv hsz htags
    have hS := splitAtChecked_of_le hlen
    have hHc := headerFromBytes_char b hlen
    have hm' : (headerOfBytes b).magic = MAGIC := hm
    have hv' : VERSIONS.contains (headerOfBytes b).version = true := hv
    rw [if_neg (not_not_intro hm'), if_neg (not_not_intro hv')] at hHc
    rw [archiveNew_ok_step hS hHc]
    have hcEq : (headerOfBytes b).entry_count = leToNat ((b.drop 12).take 4) := rfl
    have hnEq : (headerOfBytes b).names_size = leToNat ((b.drop 16).take 8) := rfl
    have hxEq : (headerOfBytes b).extra_data_size = leToNat ((b.drop 24).take 8) := rfl
    have hlc : (headerOfBytes b).entry_count * 56 ≤ (b.drop 40).length := by
      rw [hcEq]
      simp only [List.length_drop]
      omega
    have hT := splitAtChecked_of_le hlc
    have hvalid : ∀ j, j < (headerOfBytes b).entry_count →
        sigTagValid (entryTagAt
          ((b.drop 40).take ((headerOfBytes b).entry_count * 56)) j) = true := by
      intro j hj
      rw [hcEq] at hj ⊢
      rw [entryTagAt_segment b (leToNat ((b.drop 12).take 4)) j hj]
      exact htags j hj
    obtain ⟨l, hP⟩ := parseEntries_isSome_of_valid (headerOfBytes b).entry_count
      ((b.drop 40).take ((headerOfBytes b).entry_count * 56)) hvalid
    rw [archiveNewRest_ok_step (headerOfBytes b) hT hP]
    have hNle : (headerOfBytes b).names_size ≤
        ((b.drop 40).drop ((headerOfBytes b).entry_count * 56)).length := by
      rw [hnEq, hcEq]
      simp only [List.length_drop]
      omega
    have hNs := splitAtChecked_of_le hNle
    have hXle : (headerOfBytes b).extra_data_size ≤
        (((b.drop 40).drop ((headerOfBytes b).entry_count * 56)).drop
          ((headerOfBytes b).names_size)).length := by
      rw [hxEq, hnEq, hcEq]
      simp only [List.length_drop]
      omega
    have hXs := splitAtChecked_of_le hXle
    rw [parseSegments_ok (headerOfBytes b) l hNs hXs]
    exact ⟨_, rfl⟩
  · exact ⟨by decide, by decide, by decide⟩

/-- Witness instantiating the universal half of C9 at `oobBuf`: all its
structural hypotheses hold, so `Archive::new` accepts it even though its
entry is out of bounds. -/
theorem C9_lazy_bounds_witness :
    (40 ≤ oobBuf.length ∧ oobBuf.take 8 = MAGIC ∧
      VERSIONS.contains (leToNat ((oobBuf.drop 8).take 4)) = true ∧
      40 + leToNat ((oobBuf.drop 12).take 4) * 56 + leToNat ((oobBuf.drop 16).take 8) +
        leToNat ((oobBuf.drop 24).take 8) ≤ oobBuf.length ∧
      (∀ i, i < leToNat ((oobBuf.drop 12).take 4) →
        sigTagValid (tagAt oobBuf i) = true)) ∧
    (∃ a, archiveNew oobBuf = .ok a) :=
  ⟨⟨by decide, by decide, by decide, by decide, by decide⟩,
    C9_lazy_bounds.1 oobBuf (by decide) (by decide) (by decide) (by decide) (by decide)⟩

/-- C10: the decoder never checks the header's `uncompressed_size` field
against anything: two buffers of equal length that agree outside header
bytes 32..40 (the `uncompressed_size` slot) parse to outcomes equal up to
that stored field — same panic, same typed error, or archives with
identical entry table and segments. -/
theorem C10_uncompressed_ignored (b1 b2 : List Nat)
    (hlen : b1.length = b2.length)
    (hpre : b1.take 32 = b2.take 32)
    (hpost : b1.drop 40 = b2.drop 40) :
    stripUncompressed (archiveNew b1) = stripUncompressed (archiveNew b2) := by
  by_cases h40 : 40 ≤ b1.length
  · have h40' : 40 ≤ b2.length := by omega
    have hS1 := splitAtChecked_of_le h40
    have hS2 := splitAtChecked_of_le h40'
    have f8 : b1.take 8 = b2.take 8 := by
      have e : ∀ bx : List Nat, bx.take 8 = (bx.take 32).take 8 := by
        intro bx; rw [List.take_take]; norm_num
      rw [e b1, e b2, hpre]
    have f12 : (b1.drop 8).take 4 = (b2.drop 8).take 4 := by
      have e : ∀ bx : List Nat, (bx.drop 8).take 4 = ((bx.take 32).drop 8).take 4 := by
        intro bx; rw [List.drop_take, List.take_take]; norm_num
      rw [e b1, e b2, hpre]
    have f16 : (b1.drop 12).take 4 = (b2.drop 12).take 4 := by
      have e : ∀ bx : List Nat, (bx.drop 12).take 4 = ((bx.take 32).drop 12).take 4 := by
        intro bx; rw [List.drop_take, List.take_take]; norm_num
      rw [e b1, e b2, hpre]
    have f24 : (b1.drop 16).take 8 = (b2.drop 16).take 8 := by
      have e : ∀ bx : List Nat, (bx.drop 16).take 8 = ((bx.take 32).drop 16).take 8 := by
        intro bx; rw [List.drop_take, List.take_take]; norm_num
      rw [e b1, e b2, hpre]
    have f32 : (b1.drop 24).take 8 = (b2.drop 24).take 8 := by
      have e : ∀ bx : List Nat, (bx.drop 24).take 8 = ((bx.take 32).drop 24).take 8 := by
        intro bx; rw [List.drop_take, List.take_take]; norm_num
      rw [e b1, e b2, hpre]
    have hH1 := headerFromBytes_char b1 h40
    have hH2 := headerFromBytes_char b2 h40'
    by_cases hm : b1.take 8 = MAGIC
    · have hm2 : b2.take 8 = MAGIC := by rw [← f8]; exact hm
      have hm1' : (headerOfBytes b1).magic = MAGIC := hm
      have hm2' : (headerOfBytes b2).magic = MAGIC := hm2
      by_cases hv : VERSIONS.contains (leToNat ((b1.drop 8).take 4)) = true
      · have hv2 : VERSIONS.contains (leToNat ((b2.drop 8).take 4)) = true := by
          rw [← f12]; exact hv
        have hv1' : VERSIONS.contains (headerOfBytes b1).version = true := hv
        have hv2' : VERSIONS.contains (headerOfBytes b2).version = true := hv2
        rw [if_neg (not_not_intro hm1'), if_neg (not_not_intro hv1')] at hH1
        rw [if_neg (not_not_intro hm2'), if_neg (not_not_intro hv2')] at hH2
        rw [archiveNew_ok_step hS1 hH1, archiveNew_ok_step hS2 hH2, hpost]
        exact archiveNewRest_congr (headerOfBytes b1) (headerOfBytes b2) (b2.drop 40)
          f8 (congrArg leToNat f12) (congrArg leToNat f16)
          (congrArg leToNat f24) (congrArg leToNat f32)
      · have hv2 : ¬ (VERSIONS.contains (leToNat ((b2.drop 8).take 4)) = true) := by
          rw [← f12]; exact hv
        have hv1' : ¬ (VERSIONS.contains (headerOfBytes b1).version = true) := hv
        have hv2' : ¬ (VERSIONS.contains (headerOfBytes b2).version = true) := hv2
        rw [if_neg (not_not_intro hm1'), if_pos hv1'] at hH1
        rw [if_neg (not_not_intro hm2'), if_pos hv2'] at hH2
        rw [archiveNew_err hS1 hH1, archiveNew_err hS2 hH2]
    · have hm2 : ¬ (b2.take 8 = MAGIC) := by rw [← f8]; exact hm
      have hm1' : ¬ ((headerOfBytes b1).magic = MAGIC) := hm
      have hm2' : ¬ ((headerOfBytes b2).magic = MAGIC) := hm2
      rw [if_pos hm1'] at hH1
      rw [if_pos hm2'] at hH2
      rw [archiveNew_err hS1 hH1, archiveNew_err hS2 hH2]
  · have hp1 := archiveNew_panic (splitAtChecked_of_gt (show b1.length < 40 by omega))
    have hp2 := archiveNew_panic (splitAtChecked_of_gt (show b2.length < 40 by omega))
    rw [hp1, hp2]

/-- `oobBuf` with only the 8 `uncompressed_size` header bytes changed
(12345 instead of 96). -/
def oobBufAlt : List Nat :=
  headerToBytes
    { magic := MAGIC, version := VERSION_0_0_1_0, entry_count := 1,
      names_size := 0, extra_data_size := 0, uncompressed_size := 12345 } ++
  tableEntryToBytes
    { signature := .File, name_offset := 0, name_len := 1,
      extra_data_offset := 0, extra_data_len := 0, data_offset := 0, data_len := 0 }

/-- Witness for C10: `oobBuf` and `oobBufAlt` differ only in the
`uncompressed_size` header bytes and parse to the same stripped outcome. -/
theorem C10_uncompressed_ignored_witness :
    (oobBuf.length = oobBufAlt.length ∧ oobBuf.take 32 = oobBufAlt.take 32 ∧
      oobBuf.drop 40 = oobBufAlt.drop 40) ∧
    stripUncompressed (archiveNew oobBuf) = stripUncompressed (archiveNew oobBufAlt) :=
  ⟨⟨by decide, by decide, by decide⟩,
    C10_uncompressed_ignored oobBuf oobBufAlt (by decide) (by decide) (by decide)⟩

end OpenArchive
